import Mathlib

/-!
# Verification of `merkle-tools` (settlemint/merkle-tools, src/merkletools.ts)

A shallow embedding of the MerkleTools class: buffers are `List Nat` of byte
values, hex strings are `String`, the mutable `this.tree` is threaded as an
explicit `Tree` state, and fallible operations return `Except JSError _`
(a thrown JS exception is `.error`; the `null` "absence" sentinel is `Option`).
The hashing primitive is external (node `crypto` / `js-sha3`), so the tree
operations are parameterized by `hash : Bytes → Bytes`; the string-switch
dispatch of `hashFunction` over the algorithm identifier is embedded
separately, parameterized by a `HashProvider`.
-/

namespace MerkleTools

/-- A node.js `Buffer`: a finite sequence of bytes. -/
abbrev Bytes := List Nat

/-- The JS exceptions the embedded code can throw. -/
inductive JSError where
  /-- `Error("Bad hex value - '...'")` thrown by `getBuffer`, carrying the
  offending value. -/
  | badHex (value : String)
  /-- `TypeError` from reading a property of `undefined` (out-of-bounds array
  access followed by a member access). -/
  | typeError
  /-- `crypto.createHash` throwing `Digest method not supported` for an
  unknown algorithm identifier. -/
  | unsupportedDigest (hashType : String)
deriving DecidableEq, Repr

/-- A `string | Buffer` value, as accepted by `addLeaf`, `validateProof` and
`getBuffer`. -/
inductive BufOrStr where
  | buf (b : Bytes)
  | str (s : String)
deriving DecidableEq, Repr

/-- `ISibling`: a record with two optional fields `left` and `right`
(hex-encoded sibling hashes). An absent field is JS `undefined`. -/
structure Sibling where
  left : Option String := none
  right : Option String := none
deriving DecidableEq, Repr

/-- The private `this.tree : ITree` state of a `MerkleTools` instance. -/
structure Tree where
  leaves : List Bytes
  levels : List (List Bytes)
  isReady : Bool
deriving DecidableEq, Repr

/-- JS truthiness of a `string | undefined` field: defined and non-empty. -/
def truthy : Option String → Bool
  | none => false
  | some s => !(s == "")

/-! ## Hex encoding and decoding (node `Buffer` semantics)

`Buffer.prototype.toString('hex')` produces lowercase hex, two digits per
byte.  `Buffer.from(s, 'hex')` decodes pairs of hex digits and silently stops
at a trailing incomplete pair (so an odd-length hex string loses its final
digit).  These are external node primitives consumed by the source. -/

/-- The two lowercase hex digits of one byte, most significant first
(`Buffer.toString('hex')` for a single byte). -/
def hexEncodeByte (b : Nat) : List Char :=
  [Nat.digitChar (b / 16), Nat.digitChar (b % 16)]

/-- `buffer.toString('hex')`: lowercase hex, two digits per byte. -/
def hexEncode (bs : Bytes) : String :=
  String.mk ((bs.map hexEncodeByte).flatten)

/-- Is `c` one of `0-9`, `a-f`, `A-F`? -/
def isHexDigitChar (c : Char) : Bool :=
  ('0' ≤ c && c ≤ '9') || ('a' ≤ c && c ≤ 'f') || ('A' ≤ c && c ≤ 'F')

/-- Numeric value of a hex digit character. -/
def hexCharVal (c : Char) : Nat :=
  if '0' ≤ c && c ≤ '9' then c.toNat - '0'.toNat
  else if 'a' ≤ c && c ≤ 'f' then c.toNat - 'a'.toNat + 10
  else if 'A' ≤ c && c ≤ 'F' then c.toNat - 'A'.toNat + 10
  else 0

/-- `Buffer.from(s, 'hex')` on a string of hex digits: decode two digits per
byte; a trailing unpaired digit is dropped (node truncates the incomplete
pair rather than erroring). -/
def hexDecode : List Char → Bytes
  | c1 :: c2 :: rest => (16 * hexCharVal c1 + hexCharVal c2) :: hexDecode rest
  | _ => []

/-- UTF-8 encoding of one character (what `hash.update(string)` hashes). -/
def utf8EncodeChar (c : Char) : List Nat :=
  let n := c.toNat
  if n < 0x80 then [n]
  else if n < 0x800 then [0xC0 + n / 64, 0x80 + n % 64]
  else if n < 0x10000 then
    [0xE0 + n / 4096, 0x80 + n / 64 % 64, 0x80 + n % 64]
  else
    [0xF0 + n / 262144, 0x80 + n / 4096 % 64, 0x80 + n / 64 % 64, 0x80 + n % 64]

/-- The bytes a JS hashing primitive consumes for a `string | Buffer` input:
a `Buffer`'s bytes as-is, a string's UTF-8 bytes (NOT its hex decoding). -/
def jsValBytes : BufOrStr → Bytes
  | .buf b => b
  | .str s => s.data.flatMap utf8EncodeChar

/-! ## The `MerkleTools` private helpers -/

/-- `isHex` (src/merkletools.ts:333): the regex over the class
`0-9A-Fa-f` requiring two or more characters — note it does NOT require even
length. -/
def isHex (s : String) : Bool :=
  2 ≤ s.length && s.data.all isHexDigitChar

/-- `getBuffer` (src/merkletools.ts:312): a `Buffer` passes through
unchanged; a string passing `isHex` is hex-decoded; anything else throws
`Error("Bad hex value - '...'")`. -/
def getBuffer : BufOrStr → Except JSError Bytes
  | .buf b => .ok b
  | .str s => if isHex s then .ok (hexDecode s.data) else .error (.badHex s)

/-- The concatenate-and-hash (or double-hash) of one adjacent pair, as done
identically in `calculateNextLevel`, `calculateBTCNextLevel` and
`validateProof`. -/
def hashPair (hash : Bytes → Bytes) (d : Bool) (l r : Bytes) : Bytes :=
  if d then hash (hash (l ++ r)) else hash (l ++ r)

/-- `calculateNextLevel` (src/merkletools.ts:347): hash adjacent pairs of the
current top level; an odd trailing node is promoted UNCHANGED. -/
def calculateNextLevel (hash : Bytes → Bytes) (d : Bool) : List Bytes → List Bytes
  | x :: y :: rest => hashPair hash d x y :: calculateNextLevel hash d rest
  | [x] => [x]
  | [] => []

/-- Each level of the standard build halves the node count, rounding up. -/
theorem length_calculateNextLevel (hash : Bytes → Bytes) (d : Bool) :
    ∀ l : List Bytes, (calculateNextLevel hash d l).length = (l.length + 1) / 2
  | [] => by simp [calculateNextLevel]
  | [_] => by simp [calculateNextLevel]
  | _ :: _ :: rest => by
      simp [calculateNextLevel, length_calculateNextLevel hash d rest]
      omega

/-- The `while (levels[0].length > 1)` loop of `makeTree`
(src/merkletools.ts:134): repeatedly prepend `calculateNextLevel` of the
current top level. `rest` holds the already-stacked lower levels
(bottom of the tree at the end of the list). -/
def growLevels (hash : Bytes → Bytes) (d : Bool)
    (top : List Bytes) (rest : List (List Bytes)) : List (List Bytes) :=
  if _h : 1 < top.length then
    growLevels hash d (calculateNextLevel hash d top) (top :: rest)
  else top :: rest
termination_by top.length
decreasing_by simp [length_calculateNextLevel]; omega

/-- `makeTree` (src/merkletools.ts:127): when there is at least one leaf,
rebuild the level stack from the leaf array; with zero leaves the levels are
left as they were. Either way the tree is marked ready. -/
def makeTree (hash : Bytes → Bytes) (d : Bool) (t : Tree) : Tree :=
  if 0 < t.leaves.length then
    { leaves := t.leaves, levels := growLevels hash d t.leaves [], isReady := true }
  else
    { leaves := t.leaves, levels := t.levels, isReady := true }

/-- `addLeaf` (src/merkletools.ts:62). `this.tree.isReady = false` happens
FIRST; with `doHash` the raw value (a string hashed as its UTF-8 bytes) is
hashed and the hash output (a `Buffer`) passes coercion unchanged; without
`doHash` the value goes through `getBuffer`, whose exception propagates
AFTER readiness was already cleared — the error therefore carries the
mutated state. -/
def addLeaf (hash : Bytes → Bytes) (t : Tree) (value : BufOrStr)
    (doHash : Bool) : Except (JSError × Tree) Tree :=
  let t1 : Tree := { t with isReady := false }
  if doHash then
    .ok { t1 with leaves := t1.leaves ++ [hash (jsValBytes value)] }
  else
    match getBuffer value with
    | .ok b => .ok { t1 with leaves := t1.leaves ++ [b] }
    | .error e => .error (e, t1)

/-- `addLeaves` (src/merkletools.ts:78): `forEach` over the values; an
exception from `addLeaf` propagates, keeping the mutations already made for
the earlier values. -/
def addLeaves (hash : Bytes → Bytes) (t : Tree) (values : List BufOrStr)
    (doHash : Bool) : Except (JSError × Tree) Tree :=
  match values with
  | [] => .ok t
  | v :: rest =>
    match addLeaf hash t v doHash with
    | .ok t1 => addLeaves hash t1 rest doHash
    | .error e => .error e

/-- `getLeaf` (src/merkletools.ts:94): `null` for an index that is negative
or past the end. -/
def getLeaf (t : Tree) (index : Int) : Option Bytes :=
  if index < 0 ∨ (t.leaves.length : Int) - 1 < index then none
  else t.leaves[index.toNat]?

/-- `getLeafCount` (src/merkletools.ts:107). -/
def getLeafCount (t : Tree) : Nat := t.leaves.length

/-- `getTreeReadyState` (src/merkletools.ts:117). -/
def getTreeReadyState (t : Tree) : Bool := t.isReady

/-- `resetTree` (src/merkletools.ts:46). -/
def resetTree (_t : Tree) : Tree := { leaves := [], levels := [], isReady := false }

/-- `getMerkleRoot` (src/merkletools.ts:167): `null` unless ready with a
nonempty level stack, else `levels[0][0]`. -/
def getMerkleRoot (t : Tree) : Option Bytes :=
  if !t.isReady || t.levels.length == 0 then none
  else t.levels.head?.bind fun lvl => lvl.head?

/-- The proof-walk loop of `getProof` (src/merkletools.ts:191), walking the
levels from the leaf level up to (excluding) the root level: at an odd-end
node record nothing, otherwise record the tagged hex-encoded sibling; an
out-of-bounds sibling access is `undefined` and its `.toString('hex')`
throws `TypeError`. -/
def getProofLoop : List (List Bytes) → Nat → List Sibling →
    Except JSError (List Sibling)
  | [], _, acc => .ok acc
  | level :: rest, index, acc =>
    let count := level.length
    if index == count - 1 && count % 2 == 1 then
      getProofLoop rest (index / 2) acc
    else
      let isRightNode := index % 2 == 1
      let siblingIndex := if isRightNode then index - 1 else index + 1
      match level[siblingIndex]? with
      | none => .error .typeError
      | some sib =>
        let entry : Sibling :=
          if isRightNode then { left := some (hexEncode sib) }
          else { right := some (hexEncode sib) }
        getProofLoop rest (index / 2) (acc ++ [entry])

/-- `getProof` (src/merkletools.ts:181). Mirrors the JS evaluation order: the
readiness check, then the short-circuit `index < 0`, then
`levels[levels.length - 1].length` — which, when `levels` is empty (the
zero-leaf ready state), reads `.length` of `undefined` and throws
`TypeError`. The walk visits `levels[x]` for `x` from `levels.length - 1`
down to `1`, i.e. `levels.reverse.dropLast`. -/
def getProof (t : Tree) (index : Int) : Except JSError (Option (List Sibling)) :=
  if !t.isReady then .ok none
  else if index < 0 then .ok none
  else
    match t.levels.getLast? with
    | none => .error .typeError
    | some leafLevel =>
      if (leafLevel.length : Int) - 1 < index then .ok none
      else (getProofLoop (t.levels.reverse.dropLast) index.toNat []).map some

/-- The fold of `validateProof` over the proof entries
(src/merkletools.ts:241): a truthy `left` is coerced (possibly throwing) and
concatenated in front of the running hash, a truthy `right` behind it; an
entry with neither truthy tag makes the whole validation return `false`
(`.ok none` here). -/
def validateLoop (hash : Bytes → Bytes) (d : Bool) :
    Bytes → List Sibling → Except JSError (Option Bytes)
  | ph, [] => .ok (some ph)
  | ph, entry :: rest =>
    if truthy entry.left then
      match getBuffer (.str (entry.left.getD "")) with
      | .error e => .error e
      | .ok sib => validateLoop hash d (hashPair hash d sib ph) rest
    else if truthy entry.right then
      match getBuffer (.str (entry.right.getD "")) with
      | .error e => .error e
      | .ok sib => validateLoop hash d (hashPair hash d ph sib) rest
    else .ok none

/-- `validateProof` (src/merkletools.ts:229): coerce target and root (their
coercion errors propagate), special-case the empty proof as hex-string
equality of target and root, else fold and compare hex strings. -/
def validateProof (hash : Bytes → Bytes) (proof : List Sibling)
    (targetHash merkleRoot : BufOrStr) (doubleHash : Bool) :
    Except JSError Bool :=
  match getBuffer targetHash with
  | .error e => .error e
  | .ok target =>
    match getBuffer merkleRoot with
    | .error e => .error e
    | .ok root =>
      if proof.length == 0 then .ok (hexEncode target == hexEncode root)
      else
        match validateLoop hash doubleHash target proof with
        | .error e => .error e
        | .ok none => .ok false
        | .ok (some proofHash) => .ok (hexEncode proofHash == hexEncode root)

/-! ## The BTC-style build -/

/-- The pairing loop of `calculateBTCNextLevel` (src/merkletools.ts:389),
run on the already-extended (even-length) level: every adjacent pair is
concatenated and hashed; there is no promote-unchanged case. -/
def btcPairs (hash : Bytes → Bytes) (d : Bool) : List Bytes → List Bytes
  | x :: y :: rest => hashPair hash d x y :: btcPairs hash d rest
  | _ => []

/-- `btcPairs` halves the (even) node count, rounding down. -/
theorem length_btcPairs (hash : Bytes → Bytes) (d : Bool) :
    ∀ l : List Bytes, (btcPairs hash d l).length = l.length / 2
  | [] => by simp [btcPairs]
  | [_] => by simp [btcPairs]
  | _ :: _ :: rest => by
      simp [btcPairs, length_btcPairs hash d rest]
      omega

/-- The duplication step of `calculateBTCNextLevel` (src/merkletools.ts:385):
`topLevel.push(topLevel[topLevelCount - 1])` when the count is odd. This is
an IN-PLACE mutation of the level array in the source. -/
def btcExtend (topLevel : List Bytes) : List Bytes :=
  if topLevel.length % 2 == 1 then topLevel ++ [topLevel.getLastD []]
  else topLevel

/-- The `while` loop of `makeBTCTree` (src/merkletools.ts:154): each
iteration first extends the current top level in place when odd, then stacks
the pair-hashed next level on top of it. The extended level is what remains
in the `levels` stack. -/
def growBTCLevels (hash : Bytes → Bytes) (d : Bool)
    (top : List Bytes) (rest : List (List Bytes)) : List (List Bytes) :=
  if _h : 1 < top.length then
    growBTCLevels hash d (btcPairs hash d (btcExtend top)) (btcExtend top :: rest)
  else top :: rest
termination_by top.length
decreasing_by
  simp only [length_btcPairs]
  by_cases hp : top.length % 2 == 1 <;> simp [btcExtend, hp] <;> omega

/-- `makeBTCTree` (src/merkletools.ts:147). `this.tree.levels.unshift(
this.tree.leaves)` makes the bottom level THE SAME ARRAY OBJECT as
`this.tree.leaves`; on the first loop iteration `calculateBTCNextLevel`
pushes the duplicate into that shared array when the leaf count is odd, so
after the build `this.tree.leaves` is the (possibly extended) bottom level
— this aliasing is modelled by re-reading the leaves from the bottom of the
level stack. -/
def makeBTCTree (hash : Bytes → Bytes) (d : Bool) (t : Tree) : Tree :=
  if 0 < t.leaves.length then
    let lvls := growBTCLevels hash d t.leaves []
    { leaves := lvls.getLastD [], levels := lvls, isReady := true }
  else
    { leaves := t.leaves, levels := t.levels, isReady := true }

/-! ## Constructor and hash-algorithm dispatch

The hash primitives (`js-sha3`, node `crypto`) are external; a
`HashProvider` packages them: the four SHA3 functions the `switch` names,
and `createHash` as a partial map — `crypto.createHash` throws for an
identifier it does not support, modelled as `none`. -/

/-- The external hashing primitives `hashFunction` dispatches over. -/
structure HashProvider where
  sha3With224 : Bytes → Bytes
  sha3With256 : Bytes → Bytes
  sha3With384 : Bytes → Bytes
  sha3With512 : Bytes → Bytes
  createHash : String → Option (Bytes → Bytes)

/-- `hashFunction` (src/merkletools.ts:285): a string `switch` on the stored
`hashType`; everything not one of the four `SHA3-*` literals goes to
`crypto.createHash(this.hashType)`, which throws AT USE TIME for an
unsupported identifier. A string input is hashed as its UTF-8 bytes. -/
def hashFunction (hp : HashProvider) (hashType : String) (value : BufOrStr) :
    Except JSError Bytes :=
  if hashType == "SHA3-224" then .ok (hp.sha3With224 (jsValBytes value))
  else if hashType == "SHA3-256" then .ok (hp.sha3With256 (jsValBytes value))
  else if hashType == "SHA3-384" then .ok (hp.sha3With384 (jsValBytes value))
  else if hashType == "SHA3-512" then .ok (hp.sha3With512 (jsValBytes value))
  else
    match hp.createHash hashType with
    | some f => .ok (f (jsValBytes value))
    | none => .error (.unsupportedDigest hashType)

/-- A `MerkleTools` class instance: the stored `hashType` and the private
tree state. -/
structure Obj where
  hashType : String
  tree : Tree
deriving DecidableEq, Repr

/-- The constructor (src/merkletools.ts:39): it only stores
`treeOptions.hashType` — it performs NO validation of the identifier and is
total. -/
def constructor (treeOptions : String := "sha256") : Obj :=
  { hashType := treeOptions, tree := { leaves := [], levels := [], isReady := false } }

/-! ## Proof-side helpers (not part of the source) -/

/-- `DecidableEq` for `Except`, for evaluating concrete runs. -/
instance {ε α : Type} [DecidableEq ε] [DecidableEq α] : DecidableEq (Except ε α) :=
  fun x y =>
    match x, y with
    | .ok a, .ok b => if h : a = b then .isTrue (by rw [h]) else .isFalse (by simp [h])
    | .error a, .error b => if h : a = b then .isTrue (by rw [h]) else .isFalse (by simp [h])
    | .ok _, .error _ => .isFalse (by simp)
    | .error _, .ok _ => .isFalse (by simp)

/-- A genuine byte buffer: nonempty with every byte `< 256`. Real node
`Buffer`s always satisfy the bound; nonemptiness is the extra condition the
round-trip property needs. -/
def GoodBytes (b : Bytes) : Prop := b ≠ [] ∧ ∀ x ∈ b, x < 256

instance : DecidablePred GoodBytes := fun b => by unfold GoodBytes; infer_instance

/-- Every node of a level is a genuine nonempty buffer. -/
def GoodLevel (lvl : List Bytes) : Prop := ∀ b ∈ lvl, GoodBytes b

instance : DecidablePred GoodLevel := fun lvl => List.decidableBAll _ lvl

/-- The hash primitive returns genuine nonempty byte buffers (true of every
digest the source can select: 28 to 64 bytes of output). -/
def GoodHash (hash : Bytes → Bytes) : Prop := ∀ bs, GoodBytes (hash bs)

/-- The chain of levels from the leaf level up: the leaf level, then
`calculateNextLevel` of it, and so on until a single node remains. This is
`makeTree`'s level stack read bottom-up. -/
def iterates (hash : Bytes → Bytes) (d : Bool) (lvl : List Bytes) :
    List (List Bytes) :=
  if _h : 1 < lvl.length then
    lvl :: iterates hash d (calculateNextLevel hash d lvl)
  else [lvl]
termination_by lvl.length
decreasing_by simp [length_calculateNextLevel]; omega

/-- The final (root) level of the standard build from a given level. -/
def buildRoot (hash : Bytes → Bytes) (d : Bool) (lvl : List Bytes) : List Bytes :=
  if _h : 1 < lvl.length then buildRoot hash d (calculateNextLevel hash d lvl)
  else lvl
termination_by lvl.length
decreasing_by simp [length_calculateNextLevel]; omega

/-- A concrete stand-in hash for witnesses: one byte, the sum of the input
modulo 256. Nonempty and byte-valued, as a real digest is. -/
def sampleHash (bs : Bytes) : Bytes := [bs.sum % 256]

/-- A concrete stand-in provider for witnesses: all four SHA3 slots are
`sampleHash` and `createHash` supports exactly `sha256`. -/
def sampleProvider : HashProvider :=
  { sha3With224 := sampleHash, sha3With256 := sampleHash
    sha3With384 := sampleHash, sha3With512 := sampleHash
    createHash := fun s => if s == "sha256" then some sampleHash else none }

/-! ## Hex lemmas -/

/-- A hex digit's character decodes back to its value. -/
theorem hexCharVal_digitChar : ∀ n, n < 16 → hexCharVal (Nat.digitChar n) = n := by
  decide

/-- A hex digit's character is in the class `0-9A-Fa-f`. -/
theorem isHexDigitChar_digitChar : ∀ n, n < 16 → isHexDigitChar (Nat.digitChar n) = true := by
  decide

theorem data_hexEncode (bs : Bytes) :
    (hexEncode bs).data = (bs.map hexEncodeByte).flatten := rfl

theorem length_hexEncode (bs : Bytes) : (hexEncode bs).length = 2 * bs.length := by
  show (hexEncode bs).data.length = 2 * bs.length
  rw [data_hexEncode]
  induction bs with
  | nil => rfl
  | cons b rest ih => simp [hexEncodeByte, ih]; omega

/-- Decoding inverts encoding on genuine bytes. -/
theorem hexDecode_hexEncode : ∀ bs : Bytes, (∀ x ∈ bs, x < 256) →
    hexDecode (hexEncode bs).data = bs := by
  intro bs
  rw [data_hexEncode]
  induction bs with
  | nil => intro _; rfl
  | cons b rest ih =>
    intro h
    have hb : b < 256 := h b (by simp)
    have h1 : b / 16 < 16 := by omega
    have h2 : b % 16 < 16 := by omega
    simp only [List.map_cons, List.flatten_cons, hexEncodeByte, List.cons_append,
      List.nil_append, hexDecode, List.append_eq]
    rw [hexCharVal_digitChar _ h1, hexCharVal_digitChar _ h2,
      ih (fun x hx => h x (by simp [hx]))]
    congr 1
    omega

/-- The hex encoding of a nonempty genuine buffer passes `isHex`. -/
theorem isHex_hexEncode (bs : Bytes) (h : ∀ x ∈ bs, x < 256) (hne : bs ≠ []) :
    isHex (hexEncode bs) = true := by
  unfold isHex
  apply Bool.and_eq_true_iff.mpr
  constructor
  · have := length_hexEncode bs
    have : 1 ≤ bs.length := by
      cases bs with
      | nil => exact absurd rfl hne
      | cons _ _ => simp
    simp only [decide_eq_true_eq, length_hexEncode]
    omega
  · rw [data_hexEncode, List.all_eq_true]
    intro c hc
    rw [List.mem_flatten] at hc
    obtain ⟨l, hl, hcl⟩ := hc
    rw [List.mem_map] at hl
    obtain ⟨b, hb, rfl⟩ := hl
    have hblt : b < 256 := h b hb
    simp only [hexEncodeByte, List.mem_cons, List.not_mem_nil, or_false] at hcl
    rcases hcl with rfl | rfl
    · exact isHexDigitChar_digitChar _ (by omega)
    · exact isHexDigitChar_digitChar _ (by omega)

/-- The hex encoding of a nonempty buffer is a nonempty (truthy) string. -/
theorem hexEncode_ne_empty (bs : Bytes) (hne : bs ≠ []) : hexEncode bs ≠ "" := by
  intro h
  have := congrArg String.length h
  rw [length_hexEncode] at this
  cases bs with
  | nil => exact hne rfl
  | cons _ _ => simp at this

theorem truthy_hexEncode (bs : Bytes) (hne : bs ≠ []) :
    truthy (some (hexEncode bs)) = true := by
  simp [truthy, hexEncode_ne_empty bs hne]

/-- Coercing the hex encoding of a nonempty genuine buffer gives it back. -/
theorem getBuffer_hexEncode (bs : Bytes) (h : ∀ x ∈ bs, x < 256) (hne : bs ≠ []) :
    getBuffer (.str (hexEncode bs)) = .ok bs := by
  simp [getBuffer, isHex_hexEncode bs h hne, hexDecode_hexEncode bs h]

/-! ## Structural lemmas for the round-trip proof -/

theorem getProofLoop_append : ∀ (levels : List (List Bytes)) (i : Nat) (acc : List Sibling),
    getProofLoop levels i acc = (getProofLoop levels i []).map (fun p => acc ++ p)
  | [], i, acc => by simp [getProofLoop, Except.map]
  | level :: rest, i, acc => by
    simp only [getProofLoop]
    split
    · rw [getProofLoop_append rest (i / 2) acc]
    · cases h : level[if i % 2 == 1 then i - 1 else i + 1]? with
      | none => simp [h, Except.map]
      | some sib =>
        simp only [h]
        rw [getProofLoop_append rest (i / 2) (acc ++ [_]),
            getProofLoop_append rest (i / 2) ([] ++ [_])]
        cases getProofLoop rest (i / 2) [] with
        | error e => simp [Except.map]
        | ok p => simp [Except.map]

theorem iterates_ne_nil (hash : Bytes → Bytes) (d : Bool) (lvl : List Bytes) :
    iterates hash d lvl ≠ [] := by
  rw [iterates]
  split <;> simp

theorem head_iterates (hash : Bytes → Bytes) (d : Bool) (lvl : List Bytes) :
    (iterates hash d lvl).head? = some lvl := by
  rw [iterates]
  split <;> simp

theorem getLast_iterates (hash : Bytes → Bytes) (d : Bool) (lvl : List Bytes) :
    (iterates hash d lvl).getLast? = some (buildRoot hash d lvl) := by
  rw [iterates, buildRoot]
  split
  · have hrec := getLast_iterates hash d (calculateNextLevel hash d lvl)
    cases hit : iterates hash d (calculateNextLevel hash d lvl) with
    | nil => exact absurd hit (iterates_ne_nil hash d _)
    | cons a t =>
      rw [hit] at hrec
      rw [List.getLast?_cons_cons]
      exact hrec
  · simp
termination_by lvl.length
decreasing_by simp [length_calculateNextLevel]; omega

theorem reverse_growLevels (hash : Bytes → Bytes) (d : Bool)
    (top : List Bytes) (rest : List (List Bytes)) :
    (growLevels hash d top rest).reverse = rest.reverse ++ iterates hash d top := by
  rw [growLevels, iterates]
  split
  · rw [reverse_growLevels hash d (calculateNextLevel hash d top) (top :: rest)]
    rw [iterates]
    simp
  · simp
termination_by top.length
decreasing_by simp [length_calculateNextLevel]; omega

theorem length_buildRoot (hash : Bytes → Bytes) (d : Bool) (lvl : List Bytes)
    (h : lvl ≠ []) : ∃ r, buildRoot hash d lvl = [r] := by
  rw [buildRoot]
  split
  · rename_i hlen
    apply length_buildRoot hash d
    have := length_calculateNextLevel hash d lvl
    intro hnil
    rw [hnil] at this
    simp at this
    omega
  · rename_i hlen
    cases lvl with
    | nil => exact absurd rfl h
    | cons a t =>
      cases t with
      | nil => exact ⟨a, rfl⟩
      | cons b t2 => simp at hlen
termination_by lvl.length
decreasing_by simp [length_calculateNextLevel]; omega


theorem getElem?_calculateNextLevel (hash : Bytes → Bytes) (d : Bool) :
    ∀ (lvl : List Bytes) (j : Nat),
    (calculateNextLevel hash d lvl)[j]? =
      match lvl[2 * j]?, lvl[2 * j + 1]? with
      | some a, some b => some (hashPair hash d a b)
      | some a, none => some a
      | none, _ => none
  | [], j => by simp [calculateNextLevel]
  | [x], j => by
    cases j with
    | zero => simp [calculateNextLevel]
    | succ jj =>
      have h1 : 2 * (jj + 1) = 2 * jj + 1 + 1 := by ring
      simp only [calculateNextLevel, h1, List.getElem?_cons_succ]
      simp
  | x :: y :: rest, j => by
    cases j with
    | zero => simp [calculateNextLevel]
    | succ jj =>
      have h1 : 2 * (jj + 1) = 2 * jj + 1 + 1 := by ring
      have h2 : 2 * (jj + 1) + 1 = 2 * jj + 1 + 1 + 1 := by ring
      simp only [calculateNextLevel, h1, h2, List.getElem?_cons_succ]
      exact getElem?_calculateNextLevel hash d rest jj

theorem goodLevel_calculateNextLevel (hash : Bytes → Bytes) (d : Bool)
    (Hh : GoodHash hash) :
    ∀ lvl, GoodLevel lvl → GoodLevel (calculateNextLevel hash d lvl)
  | [], _ => by intro b hb; simp [calculateNextLevel] at hb
  | [x], h => by
    intro b hb
    simp only [calculateNextLevel, List.mem_cons, List.not_mem_nil, or_false] at hb
    cases hb
    exact h _ (by simp)
  | x :: y :: rest, h => by
    intro b hb
    simp only [calculateNextLevel, List.mem_cons] at hb
    rcases hb with rfl | hb
    · unfold hashPair
      split <;> exact Hh _
    · exact goodLevel_calculateNextLevel hash d Hh rest
        (fun c hc => h c (by simp [hc])) b hb


theorem walk (hash : Bytes → Bytes) (d : Bool) (Hh : GoodHash hash) :
    ∀ (n : Nat) (lvl : List Bytes), lvl.length ≤ n → GoodLevel lvl →
    ∀ (i : Nat) (v : Bytes), lvl[i]? = some v →
    ∃ (pf : List Sibling) (root : Bytes),
      buildRoot hash d lvl = [root] ∧
      getProofLoop ((iterates hash d lvl).dropLast) i [] = .ok pf ∧
      validateLoop hash d v pf = .ok (some root) := by
  intro n
  induction n with
  | zero =>
    intro lvl hlen _ i v hv
    have : lvl = [] := List.length_eq_zero.mp (Nat.le_zero.mp hlen)
    subst this
    simp at hv
  | succ m ih =>
    intro lvl hlen hGood i v hv
    obtain ⟨hi, hvi⟩ := List.getElem?_eq_some_iff.mp hv
    by_cases hbig : 1 < lvl.length
    · -- at least two nodes: one more level above
      have hGood' := goodLevel_calculateNextLevel hash d Hh lvl hGood
      have hlen' : (calculateNextLevel hash d lvl).length ≤ m := by
        rw [length_calculateNextLevel]
        omega
      have hbr2 : buildRoot hash d lvl
          = buildRoot hash d (calculateNextLevel hash d lvl) := by
        rw [buildRoot, dif_pos hbig]
      have hit2 : iterates hash d lvl
          = lvl :: iterates hash d (calculateNextLevel hash d lvl) := by
        rw [iterates, dif_pos hbig]
      rw [hbr2, hit2,
        List.dropLast_cons_of_ne_nil (iterates_ne_nil hash d _)]
      by_cases hskip : i = lvl.length - 1 ∧ lvl.length % 2 = 1
      · -- odd end node: no sibling recorded, index halves, node promoted
        have hieven : i % 2 = 0 := by omega
        have hv2 : (calculateNextLevel hash d lvl)[i / 2]? = some v := by
          rw [getElem?_calculateNextLevel]
          have h2i : 2 * (i / 2) = i := by omega
          have hnone : lvl[i + 1]? = none := List.getElem?_eq_none (by omega)
          rw [h2i, hv, hnone]
        obtain ⟨pf, root, hbr, hloop, hval⟩ := ih _ hlen' hGood' (i / 2) v hv2
        refine ⟨pf, root, hbr, ?_, hval⟩
        have hcond : (i == lvl.length - 1 && lvl.length % 2 == 1) = true := by
          simp only [Bool.and_eq_true, beq_iff_eq]
          exact ⟨hskip.1, hskip.2⟩
        simp only [getProofLoop, hcond, if_true]
        exact hloop
      · -- a sibling is recorded
        have hcond : (i == lvl.length - 1 && lvl.length % 2 == 1) = false := by
          rw [Bool.eq_false_iff]
          intro hc
          simp only [Bool.and_eq_true, beq_iff_eq] at hc
          exact hskip ⟨hc.1, hc.2⟩
        by_cases hodd : i % 2 = 1
        · -- right-hand node: sibling at i - 1, tagged left
          have hsiblt : i - 1 < lvl.length := by omega
          obtain ⟨sib, hsib⟩ : ∃ sib, lvl[i - 1]? = some sib :=
            ⟨_, List.getElem?_eq_getElem hsiblt⟩
          obtain ⟨hsibne, hsib256⟩ := hGood sib (List.getElem?_mem hsib)
          have hv2 : (calculateNextLevel hash d lvl)[i / 2]?
              = some (hashPair hash d sib v) := by
            rw [getElem?_calculateNextLevel]
            have h2i : 2 * (i / 2) = i - 1 := by omega
            have h2i1 : 2 * (i / 2) + 1 = i := by omega
            rw [h2i1, h2i, hsib, hv]
          obtain ⟨pf, root, hbr, hloop, hval⟩ := ih _ hlen' hGood' (i / 2) _ hv2
          refine ⟨⟨some (hexEncode sib), none⟩ :: pf, root, hbr, ?_, ?_⟩
          · simp only [getProofLoop, hcond, Bool.false_eq_true, if_false,
              hodd, beq_self_eq_true, if_true, hsib, List.nil_append]
            rw [getProofLoop_append _ _ [_], hloop]
            simp [Except.map]
          · simp only [validateLoop, truthy_hexEncode sib hsibne, if_true,
              Option.getD_some]
            rw [getBuffer_hexEncode sib hsib256 hsibne]
            exact hval
        · -- left-hand node: sibling at i + 1, tagged right
          have hieven : i % 2 = 0 := by omega
          have hsiblt : i + 1 < lvl.length := by omega
          obtain ⟨sib, hsib⟩ : ∃ sib, lvl[i + 1]? = some sib :=
            ⟨_, List.getElem?_eq_getElem hsiblt⟩
          obtain ⟨hsibne, hsib256⟩ := hGood sib (List.getElem?_mem hsib)
          have hv2 : (calculateNextLevel hash d lvl)[i / 2]?
              = some (hashPair hash d v sib) := by
            rw [getElem?_calculateNextLevel]
            have h2i : 2 * (i / 2) = i := by omega
            rw [h2i, hsib, hv]
          obtain ⟨pf, root, hbr, hloop, hval⟩ := ih _ hlen' hGood' (i / 2) _ hv2
          refine ⟨⟨none, some (hexEncode sib)⟩ :: pf, root, hbr, ?_, ?_⟩
          · have hoddf : (i % 2 == 1) = false := by
              simp [hieven]
            simp only [getProofLoop, hcond, Bool.false_eq_true, if_false,
              hoddf, hsib, List.nil_append]
            rw [getProofLoop_append _ _ [_], hloop]
            simp [Except.map]
          · have htl : truthy (none : Option String) = false := rfl
            simp only [validateLoop, htl, Bool.false_eq_true, if_false,
              truthy_hexEncode sib hsibne, if_true, Option.getD_some]
            rw [getBuffer_hexEncode sib hsib256 hsibne]
            exact hval
    · -- a single node: the level is the root level
      have hlvl : lvl = [v] := by
        have h1 : lvl.length = 1 := by omega
        cases lvl with
        | nil => simp at h1
        | cons a t =>
          cases t with
          | nil =>
            have : i = 0 := by simp at h1; omega
            subst this
            simp at hvi
            rw [hvi]
          | cons b t2 => simp at h1
      refine ⟨[], v, ?_, ?_, ?_⟩
      · rw [buildRoot, dif_neg hbig, hlvl]
      · rw [iterates, dif_neg hbig]
        simp [getProofLoop]
      · simp [validateLoop]

/-- `sampleHash` is a `GoodHash`: nonempty, byte-valued output. -/
theorem goodHash_sampleHash : GoodHash sampleHash := by
  intro bs
  refine ⟨by simp [sampleHash], ?_⟩
  intro x hx
  simp only [sampleHash, List.mem_cons, List.not_mem_nil, or_false] at hx
  subst hx
  omega

/-- Folding `validateProof`'s loop over an appended proof: once a prefix has
been processed successfully to a running hash, the fold continues from that
hash on the remainder. -/
theorem validateLoop_append (hash : Bytes → Bytes) (d : Bool) :
    ∀ (pre rest : List Sibling) (ph h' : Bytes),
    validateLoop hash d ph pre = .ok (some h') →
    validateLoop hash d ph (pre ++ rest) = validateLoop hash d h' rest
  | [], rest, ph, h', hpre => by
    simp only [validateLoop] at hpre
    have hph : ph = h' := Option.some.inj (Except.ok.inj hpre)
    subst hph
    simp
  | entry :: pre2, rest, ph, h', hpre => by
    simp only [validateLoop, List.cons_append] at hpre ⊢
    by_cases hl : truthy entry.left = true
    · rw [if_pos hl] at hpre ⊢
      cases hg : getBuffer (.str (entry.left.getD "")) with
      | error e =>
        rw [hg] at hpre
        simp at hpre
      | ok sib =>
        rw [hg] at hpre
        exact validateLoop_append hash d pre2 rest _ h' hpre
    · rw [if_neg hl] at hpre ⊢
      by_cases hr : truthy entry.right = true
      · rw [if_pos hr] at hpre ⊢
        cases hg : getBuffer (.str (entry.right.getD "")) with
        | error e =>
          rw [hg] at hpre
          simp at hpre
        | ok sib =>
          rw [hg] at hpre
          exact validateLoop_append hash d pre2 rest _ h' hpre
      · rw [if_neg hr] at hpre
        simp at hpre

/-! ## The claims -/

/-- C1 (amended): round-trip proof property for NONEMPTY leaf values. For
every non-empty sequence of leaves, each a nonempty genuine byte buffer,
after `makeTree` with `doubleHash = false`, every valid index yields a proof
from `getProof` that `validateProof` accepts against `getLeaf` and
`getMerkleRoot`. (The nonemptiness restriction is forced: a zero-byte leaf
hex-encodes to the empty string, which is falsy in JS, making
`validateProof` reject the sibling record — see the counterexample.) -/
theorem C1_roundTrip_nonempty_leaves (hash : Bytes → Bytes) (Hh : GoodHash hash)
    (L : List Bytes) (HL : GoodLevel L) (hne : L ≠ [])
    (lv0 : List (List Bytes)) (r0 : Bool) (i : Nat) (hi : i < L.length) :
    ∃ pf leaf root,
      getProof (makeTree hash false ⟨L, lv0, r0⟩) i = .ok (some pf) ∧
      getLeaf (makeTree hash false ⟨L, lv0, r0⟩) i = some leaf ∧
      getMerkleRoot (makeTree hash false ⟨L, lv0, r0⟩) = some root ∧
      validateProof hash pf (.buf leaf) (.buf root) false = .ok true := by
  have hpos : 0 < L.length := List.length_pos.mpr hne
  have hmk : makeTree hash false ⟨L, lv0, r0⟩
      = ⟨L, growLevels hash false L [], true⟩ := by
    simp [makeTree, hpos]
  have hrev : (growLevels hash false L []).reverse = iterates hash false L := by
    rw [reverse_growLevels]
    simp
  obtain ⟨v, hv⟩ : ∃ v, L[i]? = some v := ⟨_, List.getElem?_eq_getElem hi⟩
  obtain ⟨pf, root, hbr, hloop, hval⟩ :=
    walk hash false Hh L.length L le_rfl HL i v hv
  refine ⟨pf, v, root, ?_, ?_, ?_, ?_⟩
  · rw [hmk]
    have hlast : (growLevels hash false L []).getLast? = some L := by
      rw [← List.head?_reverse, hrev, head_iterates]
    simp only [getProof, Bool.not_true, Bool.false_eq_true, if_false, hlast]
    rw [if_neg (by omega), if_neg (by omega)]
    rw [hrev, Int.toNat_natCast, hloop]
    rfl
  · rw [hmk]
    simp only [getLeaf]
    rw [if_neg (by omega), Int.toNat_natCast]
    exact hv
  · rw [hmk]
    have hlvne : (growLevels hash false L []).length ≠ 0 := by
      intro h0
      have h1 : (growLevels hash false L []).reverse = [] := by
        rw [List.length_eq_zero.mp h0]
        rfl
      rw [hrev] at h1
      exact iterates_ne_nil hash false L h1
    have hhead : (growLevels hash false L []).head?
        = some (buildRoot hash false L) := by
      rw [← List.getLast?_reverse, hrev, getLast_iterates]
    simp only [getMerkleRoot, Bool.not_true, Bool.false_or, hhead, hbr]
    rw [if_neg (by simp [hlvne])]
    rfl
  · cases pf with
    | nil =>
      have hvr : v = root := by
        have h := hval
        simp only [validateLoop] at h
        exact Option.some.inj (Except.ok.inj h)
      subst hvr
      simp [validateProof, getBuffer]
    | cons e pf2 =>
      simp only [validateProof, getBuffer]
      rw [hval]
      simp

/-- C1 witness: the round-trip property at three one-byte leaves with the
sample hash, index 1. -/
theorem C1_roundTrip_witness :
    ∃ pf leaf root,
      getProof (makeTree sampleHash false ⟨[[1], [2], [3]], [], false⟩) 1
        = .ok (some pf) ∧
      getLeaf (makeTree sampleHash false ⟨[[1], [2], [3]], [], false⟩) 1
        = some leaf ∧
      getMerkleRoot (makeTree sampleHash false ⟨[[1], [2], [3]], [], false⟩)
        = some root ∧
      validateProof sampleHash pf (.buf leaf) (.buf root) false = .ok true :=
  C1_roundTrip_nonempty_leaves sampleHash goodHash_sampleHash
    [[1], [2], [3]] (by decide) (by decide) [] false 1 (by decide)

/-- C1 counterexample: the claim as stated fails when a leaf is an EMPTY
buffer (which `addLeaf` accepts). The empty leaf hex-encodes to `""`, the
sibling record becomes `left: ""`, and JS truthiness makes `validateProof`
return `false` instead of `true` for the other leaf's proof. -/
theorem C1_empty_leaf_counterexample :
    addLeaves sampleHash ⟨[], [], false⟩ [.buf [], .buf [170]] false
      = .ok ⟨[[], [170]], [], false⟩ ∧
    getProof (makeTree sampleHash false ⟨[[], [170]], [], false⟩) 1
      = .ok (some [{ left := some "" }]) ∧
    getLeaf (makeTree sampleHash false ⟨[[], [170]], [], false⟩) 1
      = some [170] ∧
    getMerkleRoot (makeTree sampleHash false ⟨[[], [170]], [], false⟩)
      = some [170] ∧
    validateProof sampleHash [{ left := some "" }] (.buf [170]) (.buf [170])
      false = .ok false := by
  refine ⟨by decide, ?_, by decide, ?_, by decide⟩
  · simp [makeTree, growLevels, calculateNextLevel, hashPair, sampleHash,
      getProof, getProofLoop, hexEncode, hexEncodeByte]
    rfl
  · simp [makeTree, growLevels, calculateNextLevel, hashPair, sampleHash,
      getMerkleRoot]

/-- C2 (code bug): `makeBTCTree` MUTATES the leaf store for an odd leaf
count `≥ 3`. `this.tree.levels.unshift(this.tree.leaves)` aliases the bottom
level to the leaf array, and `calculateBTCNextLevel` pushes the duplicated
last node into that shared array, so after `makeBTCTree()` on three leaves
`getLeafCount()` reports 4 — contradicting `getLeafCount`'s own
documentation ("the number of leaves added to the tree") and the
append-only leaf store of the spec. -/
theorem C2_makeBTCTree_mutates_leaves :
    getLeafCount (makeBTCTree sampleHash false ⟨[[1], [2], [3]], [], false⟩) = 4 ∧
    (makeBTCTree sampleHash false ⟨[[1], [2], [3]], [], false⟩).leaves
      = [[1], [2], [3], [3]] := by
  constructor <;>
    simp [makeBTCTree, growBTCLevels, btcPairs, btcExtend, hashPair,
      sampleHash, getLeafCount]

/-- C3 (code bug): after `makeTree()` on a tree with zero leaves the tree is
marked ready with an EMPTY level stack, so `getProof(0)` evaluates
`this.tree.levels[-1].length` — a property read on `undefined` — and throws
`TypeError` instead of returning the absence sentinel the spec promises. -/
theorem C3_getProof_zero_leaf_crash :
    getTreeReadyState (makeTree sampleHash false ⟨[], [], false⟩) = true ∧
    getProof (makeTree sampleHash false ⟨[], [], false⟩) 0
      = .error .typeError := by
  constructor <;> simp [makeTree, getProof, getTreeReadyState]

/-- C4 counterexample: `addLeaf("zz", preHash = true)` does NOT raise
`InvalidEncodingError` — the value is hashed BEFORE any coercion (a string
is hashed as its UTF-8 bytes), and only the hash output (a buffer, which
passes coercion unchanged) is appended. With the sample hash, the UTF-8
bytes of `"zz"` are `[122, 122]` and the appended leaf is `[244]`. -/
theorem C4_preHash_no_coercion_counterexample :
    addLeaf sampleHash ⟨[], [], true⟩ (.str "zz") true
      = .ok ⟨[[244]], [], false⟩ := by decide

/-- C4 (amended): with `preHash = true`, `addLeaf` never raises: it clears
readiness, applies the configured hash to the raw input value (a buffer's
bytes as-is, a string's UTF-8 bytes — NOT its hex decoding), and appends
the hash output; coercion applies only to that output, a buffer that passes
through unchanged. -/
theorem C4_addLeaf_preHash_amended (hash : Bytes → Bytes) (t : Tree)
    (value : BufOrStr) :
    addLeaf hash t value true
      = .ok { leaves := t.leaves ++ [hash (jsValBytes value)],
              levels := t.levels, isReady := false } := rfl

/-- C5 counterexample: the shared byte-coercion helper ACCEPTS the
odd-length hex string `"abc"` (the regex requires only two-or-more hex
characters, not even length) and decodes it to the single byte `0xab`,
node's `Buffer.from` dropping the trailing unpaired digit — the claim says
odd-length hex strings raise `InvalidEncodingError`. -/
theorem C5_odd_hex_counterexample : getBuffer (.str "abc") = .ok [171] := by
  decide

/-- C5 (amended): `getBuffer` passes raw buffers through unchanged; accepts
exactly the strings of length `≥ 2` consisting solely of `0-9A-Fa-f`
characters — of EVEN OR ODD length, an odd-length string decoding with its
final unpaired digit dropped — and raises `InvalidEncodingError` carrying
the offending value for every other string (a non-hex character anywhere,
or length `< 2`, including the empty string and single hex digits). -/
theorem C5_getBuffer_amended :
    (∀ b : Bytes, getBuffer (.buf b) = .ok b) ∧
    (∀ s : String, 2 ≤ s.length → s.data.all isHexDigitChar = true →
      getBuffer (.str s) = .ok (hexDecode s.data)) ∧
    (∀ s : String, s.length < 2 ∨ s.data.all isHexDigitChar = false →
      getBuffer (.str s) = .error (.badHex s)) := by
  refine ⟨fun b => rfl, fun s h1 h2 => ?_, fun s hs => ?_⟩
  · simp [getBuffer, isHex, h1, h2]
  · rcases hs with h | h
    · have h2 : ¬ 2 ≤ s.length := by omega
      simp [getBuffer, isHex, h2]
    · simp [getBuffer, isHex, h]

/-- C5 witness: a raw buffer, an even-length mixed-case hex string, and a
non-hex string, through the amended characterization. -/
theorem C5_getBuffer_witness :
    getBuffer (.buf [5]) = .ok [5] ∧
    getBuffer (.str "0A1b") = .ok [10, 27] ∧
    getBuffer (.str "xy") = .error (.badHex "xy") := by
  refine ⟨C5_getBuffer_amended.1 [5], ?_, ?_⟩
  · rw [C5_getBuffer_amended.2.1 "0A1b" (by decide) (by decide)]
    decide
  · exact C5_getBuffer_amended.2.2 "xy" (Or.inr (by decide))

/-- On success, `addLeaf` appends exactly one coerced value, keeps the
levels, and clears readiness. -/
theorem addLeaf_ok_shape (hash : Bytes → Bytes) (t : Tree) (value : BufOrStr)
    (doHash : Bool) (t1 : Tree) (h : addLeaf hash t value doHash = .ok t1) :
    ∃ x, t1 = ⟨t.leaves ++ [x], t.levels, false⟩ := by
  cases doHash with
  | true =>
    refine ⟨hash (jsValBytes value), ?_⟩
    simp only [addLeaf] at h
    exact (Except.ok.inj h).symm
  | false =>
    simp only [addLeaf] at h
    cases hg : getBuffer value with
    | ok b =>
      rw [hg] at h
      exact ⟨b, (Except.ok.inj h).symm⟩
    | error e0 =>
      rw [hg] at h
      simp at h

/-- C6 counterexample: the claim's atomicity fails. Starting from a READY
tree with one stacked level and no leaves, `addLeaves(["aa", "zz"])` throws
on `"zz"` — but by then the leaf `[0xaa]` has been appended and the
readiness flag cleared, so the error state differs from the pre-call state
in both the leaf sequence and the readiness flag. -/
theorem C6_state_mutated_counterexample :
    addLeaves sampleHash ⟨[], [[[9]]], true⟩ [.str "aa", .str "zz"] false
      = .error (.badHex "zz", ⟨[[170]], [[[9]]], false⟩) := by decide

/-- C6 (amended): on a coercion failure the level stack is untouched and
the leaf sequence is never left with a PARTIAL value — but the readiness
flag has been cleared (it is set to `false` before coercion), and a failing
`addLeaves` keeps the successfully coerced values appended before the
failing one (the leaf sequence on error is the old one plus some prefix of
coerced values). -/
theorem C6_failure_frame_amended :
    (∀ (hash : Bytes → Bytes) (t : Tree) (value : BufOrStr) (doHash : Bool)
      (e : JSError) (t' : Tree), addLeaf hash t value doHash = .error (e, t') →
      t'.leaves = t.leaves ∧ t'.levels = t.levels ∧ t'.isReady = false) ∧
    (∀ (hash : Bytes → Bytes) (t : Tree) (values : List BufOrStr)
      (doHash : Bool) (e : JSError) (t' : Tree),
      addLeaves hash t values doHash = .error (e, t') →
      t'.levels = t.levels ∧ t'.isReady = false ∧
      ∃ pre : List Bytes, t'.leaves = t.leaves ++ pre) := by
  have hleaf : ∀ (hash : Bytes → Bytes) (t : Tree) (value : BufOrStr)
      (doHash : Bool) (e : JSError) (t' : Tree),
      addLeaf hash t value doHash = .error (e, t') →
      t'.leaves = t.leaves ∧ t'.levels = t.levels ∧ t'.isReady = false := by
    intro hash t value doHash e t' h
    cases doHash with
    | true => simp [addLeaf] at h
    | false =>
      simp only [addLeaf] at h
      cases hg : getBuffer value with
      | ok b =>
        rw [hg] at h
        simp at h
      | error e0 =>
        rw [hg] at h
        have h2 := Except.error.inj h
        have ht : t' = { t with isReady := false } := (congrArg Prod.snd h2).symm
        rw [ht]
        exact ⟨rfl, rfl, rfl⟩
  refine ⟨hleaf, ?_⟩
  intro hash t values
  induction values generalizing t with
  | nil =>
    intro doHash e t' h
    simp [addLeaves] at h
  | cons v rest ih =>
    intro doHash e t' h
    simp only [addLeaves] at h
    cases ha : addLeaf hash t v doHash with
    | ok t1 =>
      rw [ha] at h
      obtain ⟨x, hx⟩ := addLeaf_ok_shape hash t v doHash t1 ha
      obtain ⟨hlv, hrd, pre, hl⟩ := ih t1 doHash e t' h
      subst hx
      exact ⟨hlv, hrd, x :: pre, by simpa using hl⟩
    | error p =>
      rw [ha] at h
      have hp : p = (e, t') := Except.error.inj h
      rw [hp] at ha
      obtain ⟨h1, h2, h3⟩ := hleaf hash t v doHash e t' ha
      exact ⟨h2, h3, [], by simpa using h1⟩

/-- C6 witness: the amended frame condition at the counterexample's inputs:
levels kept, readiness cleared, leaves extended by the coerced prefix. -/
theorem C6_failure_frame_witness :
    (Tree.mk [[170]] [[[9]]] false).levels = (Tree.mk [] [[[9]]] true).levels ∧
    (Tree.mk [[170]] [[[9]]] false).isReady = false ∧
    ∃ pre, (Tree.mk [[170]] [[[9]]] false).leaves
      = (Tree.mk [] [[[9]]] true).leaves ++ pre :=
  C6_failure_frame_amended.2 sampleHash ⟨[], [[[9]]], true⟩
    [.str "aa", .str "zz"] false (.badHex "zz") ⟨[[170]], [[[9]]], false⟩
    (by decide)

/-- C7 counterexample: `validateProof` DOES raise. A sibling record whose
`left` value is the truthy non-hex string `"zz"` reaches `getBuffer`, which
throws `InvalidEncodingError` out of `validateProof` instead of returning
`false`. -/
theorem C7_invalid_hex_throws_counterexample :
    validateProof sampleHash [{ left := some "zz" }] (.buf [1]) (.buf [2])
      false = .error (.badHex "zz") := by decide

/-- C7 (amended): `validateProof` returns `false` — without raising — for a
sibling record carrying neither truthy tag (absent or empty-string fields,
at any position the fold reaches) and for a hash mismatch (both with an
empty and a nonempty proof); but a sibling record carrying a truthy value
that is NOT valid hex — whether left- or right-tagged, at any reached
position — makes it raise `InvalidEncodingError` with the offending value,
as does a non-hex `targetHash` or `merkleRoot` string input. -/
theorem C7_validateProof_amended :
    (∀ (hash : Bytes → Bytes) (pre post : List Sibling) (entry : Sibling)
      (tb rb h' : Bytes) (d : Bool),
      validateLoop hash d tb pre = .ok (some h') →
      truthy entry.left = false → truthy entry.right = false →
      validateProof hash (pre ++ entry :: post) (.buf tb) (.buf rb) d
        = .ok false) ∧
    (∀ (hash : Bytes → Bytes) (pre post : List Sibling) (entry : Sibling)
      (s : String) (tb rb h' : Bytes) (d : Bool),
      validateLoop hash d tb pre = .ok (some h') →
      entry.left = some s → s ≠ "" → isHex s = false →
      validateProof hash (pre ++ entry :: post) (.buf tb) (.buf rb) d
        = .error (.badHex s)) ∧
    (∀ (hash : Bytes → Bytes) (pre post : List Sibling) (entry : Sibling)
      (s : String) (tb rb h' : Bytes) (d : Bool),
      validateLoop hash d tb pre = .ok (some h') →
      truthy entry.left = false → entry.right = some s → s ≠ "" →
      isHex s = false →
      validateProof hash (pre ++ entry :: post) (.buf tb) (.buf rb) d
        = .error (.badHex s)) ∧
    (∀ (hash : Bytes → Bytes) (pf : List Sibling) (s : String) (mr : BufOrStr)
      (d : Bool), isHex s = false →
      validateProof hash pf (.str s) mr d = .error (.badHex s)) ∧
    (∀ (hash : Bytes → Bytes) (pf : List Sibling) (tb : Bytes) (s : String)
      (d : Bool), isHex s = false →
      validateProof hash pf (.buf tb) (.str s) d = .error (.badHex s)) ∧
    (∀ (hash : Bytes → Bytes) (tb rb : Bytes) (d : Bool),
      hexEncode tb ≠ hexEncode rb →
      validateProof hash [] (.buf tb) (.buf rb) d = .ok false) ∧
    (∀ (hash : Bytes → Bytes) (pf : List Sibling) (tb rb h' : Bytes) (d : Bool),
      pf ≠ [] → validateLoop hash d tb pf = .ok (some h') →
      hexEncode h' ≠ hexEncode rb →
      validateProof hash pf (.buf tb) (.buf rb) d = .ok false) := by
  refine ⟨?_, ?_, ?_, ?_, ?_, ?_, ?_⟩
  · intro hash pre post entry tb rb h' d hpre hl hr
    have hres : validateLoop hash d h' (entry :: post) = .ok none := by
      simp only [validateLoop]
      rw [if_neg (by simp [hl]), if_neg (by simp [hr])]
    simp only [validateProof, getBuffer]
    rw [if_neg (by simp), validateLoop_append hash d pre (entry :: post) tb h' hpre,
      hres]
  · intro hash pre post entry s tb rb h' d hpre hleft hs hhex
    have hl : truthy entry.left = true := by
      rw [hleft]
      simp [truthy, hs]
    have hres : validateLoop hash d h' (entry :: post) = .error (.badHex s) := by
      simp only [validateLoop]
      rw [if_pos hl, hleft]
      simp only [Option.getD_some]
      rw [show getBuffer (.str s) = .error (.badHex s) from by
        simp [getBuffer, hhex]]
    simp only [validateProof, getBuffer]
    rw [if_neg (by simp), validateLoop_append hash d pre (entry :: post) tb h' hpre,
      hres]
  · intro hash pre post entry s tb rb h' d hpre hl hright hs hhex
    have hr : truthy entry.right = true := by
      rw [hright]
      simp [truthy, hs]
    have hres : validateLoop hash d h' (entry :: post) = .error (.badHex s) := by
      simp only [validateLoop]
      rw [if_neg (by simp [hl]), if_pos hr, hright]
      simp only [Option.getD_some]
      rw [show getBuffer (.str s) = .error (.badHex s) from by
        simp [getBuffer, hhex]]
    simp only [validateProof, getBuffer]
    rw [if_neg (by simp), validateLoop_append hash d pre (entry :: post) tb h' hpre,
      hres]
  · intro hash pf s mr d hhex
    simp only [validateProof]
    rw [show getBuffer (.str s) = .error (.badHex s) from by
      simp [getBuffer, hhex]]
  · intro hash pf tb s d hhex
    simp only [validateProof, getBuffer]
    simp [hhex]
  · intro hash tb rb d h
    simp [validateProof, getBuffer, h]
  · intro hash pf tb rb h' d hpf hloop hne
    cases pf with
    | nil => exact absurd rfl hpf
    | cons e rest =>
      simp only [validateProof, getBuffer]
      rw [hloop]
      simp [hne]

/-- C7 witness: the amended behavior at concrete inputs — an empty-string
tagless record after a processed sibling, a left-tagged non-hex value (with
a right field present), a right-tagged non-hex value behind a falsy left, a
non-hex target string, a non-hex root string, an empty-proof mismatch, and
a nonempty-proof mismatch. -/
theorem C7_validateProof_witness :
    validateProof sampleHash
      [{ left := none, right := some "02" }, { left := some "", right := some "" }]
      (.buf [1]) (.buf [2]) false = .ok false ∧
    validateProof sampleHash [{ left := some "qq", right := some "02" }]
      (.buf [1]) (.buf [2]) false = .error (.badHex "qq") ∧
    validateProof sampleHash [{ left := some "", right := some "rs" }]
      (.buf [1]) (.buf [2]) false = .error (.badHex "rs") ∧
    validateProof sampleHash [] (.str "0g") (.buf [2]) false
      = .error (.badHex "0g") ∧
    validateProof sampleHash [] (.buf [1]) (.str "0g") false
      = .error (.badHex "0g") ∧
    validateProof sampleHash [] (.buf [1]) (.buf [2]) false = .ok false ∧
    validateProof sampleHash [{ left := none, right := some "02" }] (.buf [1])
      (.buf [9]) false = .ok false :=
  ⟨C7_validateProof_amended.1 sampleHash [{ left := none, right := some "02" }]
     [] { left := some "", right := some "" } [1] [2] [3] false
     (by decide) (by decide) (by decide),
   C7_validateProof_amended.2.1 sampleHash []
     [] { left := some "qq", right := some "02" } "qq" [1] [2] [1] false
     (by decide) rfl (by decide) (by decide),
   C7_validateProof_amended.2.2.1 sampleHash []
     [] { left := some "", right := some "rs" } "rs" [1] [2] [1] false
     (by decide) (by decide) rfl (by decide) (by decide),
   C7_validateProof_amended.2.2.2.1 sampleHash [] "0g" (.buf [2]) false
     (by decide),
   C7_validateProof_amended.2.2.2.2.1 sampleHash [] [1] "0g" false
     (by decide),
   C7_validateProof_amended.2.2.2.2.2.1 sampleHash [1] [2] false (by decide),
   C7_validateProof_amended.2.2.2.2.2.2 sampleHash
     [{ left := none, right := some "02" }] [1] [9] [3] false
     (by decide) (by decide) (by decide)⟩

/-- C8 counterexample: the constructor does NOT fail for an identifier
outside the enumerated set — it stores it unvalidated and construction
always succeeds; the failure surfaces only when a hashing operation later
reaches `crypto.createHash`, which rejects the unknown digest. -/
theorem C8_construction_total_counterexample :
    constructor "not-an-algorithm"
      = ⟨"not-an-algorithm", ⟨[], [], false⟩⟩ ∧
    hashFunction sampleProvider "not-an-algorithm" (.buf [1])
      = .error (.unsupportedDigest "not-an-algorithm") := by
  exact ⟨rfl, by decide⟩

/-- C8 (amended): construction is total — any identifier string is stored
as-is with a fresh empty tree — and an identifier that is none of the four
`SHA3-*` literals and is unsupported by the crypto provider makes the FIRST
HASHING OPERATION (not construction) throw. -/
theorem C8_lazy_failure_amended :
    (∀ s : String, constructor s = ⟨s, ⟨[], [], false⟩⟩) ∧
    (∀ (hp : HashProvider) (ht : String) (v : BufOrStr),
      ht ≠ "SHA3-224" → ht ≠ "SHA3-256" → ht ≠ "SHA3-384" → ht ≠ "SHA3-512" →
      hp.createHash ht = none →
      hashFunction hp ht v = .error (.unsupportedDigest ht)) := by
  refine ⟨fun s => rfl, ?_⟩
  intro hp ht v h1 h2 h3 h4 h5
  simp [hashFunction, h1, h2, h3, h4, h5]

/-- C8 witness: the amended claim at a concrete unknown identifier. -/
theorem C8_lazy_failure_witness :
    constructor "whirlpool-x" = ⟨"whirlpool-x", ⟨[], [], false⟩⟩ ∧
    hashFunction sampleProvider "whirlpool-x" (.buf [0])
      = .error (.unsupportedDigest "whirlpool-x") :=
  ⟨C8_lazy_failure_amended.1 "whirlpool-x",
   C8_lazy_failure_amended.2 sampleProvider "whirlpool-x" (.buf [0])
     (by decide) (by decide) (by decide) (by decide) rfl⟩

/-- C9: `addLeaves` on the empty sequence is the identity on the whole tree
state — in particular a ready tree STAYS ready, because the readiness flag
is cleared per added element, not by the call itself. -/
theorem C9_addLeaves_nil_id (hash : Bytes → Bytes) (t : Tree) (doHash : Bool) :
    addLeaves hash t [] doHash = .ok t := rfl

/-- C10: `makeTree` is idempotent — it rebuilds the level stack from the
unmodified leaf sequence, so a second call with the same `doubleHash` flag
reproduces exactly the same leaves, levels, and readiness. -/
theorem C10_makeTree_idempotent (hash : Bytes → Bytes) (d : Bool) (t : Tree) :
    makeTree hash d (makeTree hash d t) = makeTree hash d t := by
  by_cases h : 0 < t.leaves.length
  · simp [makeTree, h]
  · simp [makeTree, h]

end MerkleTools
